import Mathlib

/-!
Verification of the CanICA decomposition pipeline (nisl/decomposition/canica.py).

The source is a single Python class.  Its numerically delicate collaborators
(scipy linalg.svd, sklearn randomized_svd and fastica, the mask smoothing
primitives) are external black boxes per the specification, so the embedding
takes them as oracle parameters.  Everything the class itself computes is
translated: the per-subject centering/standardization, the kurtosis scoring
(scipy.stats.kurtosis with its defaults, fisher and biased), the
argsort-and-reverse selection of components, the kurtosis-threshold
resolution, the escalation while-loop with its for-else raise, the magnitude
thresholding of the final maps, and transform's matrix product.

Matrices are lists of rows over ℚ.  Python ints are ℤ.  The float -inf that
the default kurtosis threshold resolves to is the bottom element of
WithBot ℚ.  Nontermination of the while-loop is made observable with a fuel
parameter: exhausting any finite fuel yields the distinguished outcome
LoopResult.diverged.
-/

/-- A real matrix as the code manipulates it: a list of rows. -/
abbrev Mat := List (List ℚ)

/-- Arithmetic mean of a list, as np.mean computes it (sum over length). -/
def mean (xs : List ℚ) : ℚ := xs.sum / (xs.length : ℚ)

/-- The kurtosis score of one candidate map, exactly
scipy.stats.kurtosis(row) with the defaults the source relies on
(fisher=True, bias=True): fourth central moment over the squared second
central moment, minus 3.  The source computes it row-wise via
stats.kurtosis(ica_maps, axis=1). -/
def kurtosis (xs : List ℚ) : ℚ :=
  mean (xs.map (fun x => (x - mean xs) ^ 4)) /
    (mean (xs.map (fun x => (x - mean xs) ^ 2))) ^ 2 - 3

/-- Model of np.argsort(kurtosis): the indices 0,...,n-1 sorted so that the
values are ascending.  Modelled as a stable sort (insertion sort), which is
what numpy's default sort performs on the small arrays involved here; ties
therefore keep the original index order, lowest index first. -/
def argsort (xs : List ℚ) : List ℕ :=
  List.insertionSort (fun i j => xs.getD i 0 ≤ xs.getD j 0) (List.range xs.length)

/-- Model of np.sum(kurtosis_mask) for kurtosis_mask = kurtosis > kurtosis_thr:
the number of candidate rows whose kurtosis strictly exceeds the threshold. -/
def passCount (thr : WithBot ℚ) (ica : Mat) : ℕ :=
  List.countP (fun (q : ℚ) => decide (thr < (q : WithBot ℚ))) (ica.map kurtosis)

/-- Model of the acceptance lines of the escalation loop, with n the local
n_components at the accepting iteration:
order = np.argsort(kurtosis)[::-1]; ica_maps = ica_maps[order[:n_components]].
Keeps the top n candidates by descending kurtosis. -/
def selectTop (n : ℤ) (ica : Mat) : Mat :=
  (((argsort (ica.map kurtosis)).reverse).take n.toNat).map (fun i => ica.getD i [])

/-- Outcome of the while-loop of fit.  raised is the for-else branch, the
ValueError about the kurtosis criterion; diverged marks fuel exhaustion,
i.e. the loop still running after the given number of iterations. -/
inductive LoopResult
  | raised
  | diverged
  | accepted (m : Mat)
deriving DecidableEq

/-- The escalation state machine of fit, verbatim from the source:

  n_components = self.n_components
  while n_components < 3 * n_components:
      ...
      kurtosis_mask = kurtosis > kurtosis_thr
      if np.sum(kurtosis_mask) >= n_components:
          order = np.argsort(kurtosis)[::-1]
          ica_maps = ica_maps[order[:n_components]]
          break
      n_components += 1
  else:
      raise ValueError(...)

The oracle extract bundles the black-box chain
randomized_svd(concatenated pcas, k) followed by fastica(..., whiten=False,
fun=cube)[2].T: for a working count k it yields the candidate maps of that
iteration.  The guard, the acceptance test and the selection are the
code's own.  k is an ℤ because Python ints are unbounded and signed. -/
def escalateLoop (extract : ℤ → Mat) (thr : WithBot ℚ) : ℕ → ℤ → LoopResult
  | 0, _ => .diverged
  | fuel + 1, k =>
    if k < 3 * k then
      if (k : ℤ) ≤ (passCount thr (extract k) : ℤ) then
        .accepted (selectTop k (extract k))
      else
        escalateLoop extract thr fuel (k + 1)
    else
      .raised

/-- The two ways fit can raise in the part of the pipeline under study. -/
inductive FitError
  | unboundLocal
  | noHighKurtosis
deriving DecidableEq

/-- Result of a fit call: a raised error, a still-running loop (fuel
exhausted), or the fitted maps_ attribute. -/
inductive FitOutcome
  | err (e : FitError)
  | timeout
  | fitted (maps : Mat)
deriving DecidableEq

/-- The constructor configuration relevant to the claims.  kurtosis_thr is
none for the Python default False and some t for any other value. -/
structure Config where
  n_components : ℤ
  threshold : ℚ
  kurtosis_thr : Option ℚ

/-- The threshold-resolution branch of fit, verbatim:

  if self.kurtosis_thr is False:
      kurtosis_thr = -np.inf
  else:
      kurtosis_thr = kurtosis_thr

In the else branch the local name kurtosis_thr is read before any
assignment to it (the assignment itself makes the name local to fit), so
Python raises UnboundLocalError there; the branch never produces a value. -/
def resolveKurtThr : Option ℚ → Except FitError (WithBot ℚ)
  | none => .ok ⊥
  | some _ => .error .unboundLocal

/-- Number of columns of the candidate matrix, ica_maps.shape[1]. -/
def shape1 (m : Mat) : ℕ := (m.headD []).length

/-- The comparison np.abs(x) < self.threshold / np.sqrt(f) carried out in ℚ.
Squaring both sides of the float comparison gives this decidable form; the
lemma belowCutoff_iff proves it equivalent to the source's formula read over
the reals, for every sign of the threshold. -/
def belowCutoff (t : ℚ) (f : ℕ) (x : ℚ) : Bool :=
  decide (0 ≤ t) && decide (x ^ 2 * (f : ℚ) < t ^ 2)

/-- The sparsification step of fit:
ica_maps[np.abs(ica_maps) < self.threshold / np.sqrt(ica_maps.shape[1])] = 0.
Entries below the cutoff in magnitude become exactly 0, all others are kept
unchanged. -/
def thresholdMaps (t : ℚ) (m : Mat) : Mat :=
  m.map (fun row => row.map (fun x => if belowCutoff t (shape1 m) x then 0 else x))

/-- CanICA.fit after the per-subject reduction: resolve the kurtosis
threshold, run the escalation loop from self.n_components, then threshold
the accepted maps and publish them as maps_.  The per-subject PCA stage
feeds the loop only through the extract oracle (its output is the input of
randomized_svd), and learn_from_maps is an external collaborator of the
base model, outside this file's scope. -/
def fitModel (cfg : Config) (extract : ℤ → Mat) (fuel : ℕ) : FitOutcome :=
  match resolveKurtThr cfg.kurtosis_thr with
  | .error e => .err e
  | .ok thr =>
    match escalateLoop extract thr fuel cfg.n_components with
    | .raised => .err .noHighKurtosis
    | .diverged => .timeout
    | .accepted ica => .fitted (thresholdMaps cfg.threshold ica)

/-- m is an r-by-c matrix: r rows, each of length c. -/
def isShape (m : Mat) (r c : ℕ) : Prop := m.length = r ∧ ∀ row ∈ m, row.length = c

/-- Dot product of two equally long vectors. -/
def dotL (u v : List ℚ) : ℚ := (List.zipWith (fun x y => x * y) u v).sum

/-- CanICA.transform: np.dot(X, self.maps_.T).  Entry (i, j) of the result
is the dot product of row i of X with row j of maps_, which is exactly the
matrix product X times the transpose of maps_. -/
def transform (maps X : Mat) : Mat :=
  X.map (fun xrow => maps.map (fun mrow => dotL xrow mrow))

/-- Entrywise scalar multiple of a matrix. -/
def smulM (a : ℚ) (m : Mat) : Mat := m.map (List.map (fun x => a * x))

/-- Entrywise sum of two matrices of one shape. -/
def addM (A B : Mat) : Mat := List.zipWith (List.zipWith (fun x y => x + y)) A B

/-- A concrete well-shaped extraction oracle: at working count k it yields k
candidate rows of two features each.  Each row is constant, so the model's
kurtosis is -3 (scipy would emit nan for a constant row; the threshold -inf
accepts either way). -/
def exW : ℤ → Mat := fun k => List.replicate k.toNat [1, 1]

/-- A concrete extraction oracle on which no candidate ever has kurtosis
above 0: at every working count k it yields k rows [1, -1, 0, 0], each of
kurtosis -1. -/
def exC2 : ℤ → Mat := fun k => List.replicate k.toNat [1, -1, 0, 0]

/-- A concrete extraction oracle for refuting the acceptance bar: at k = 1
the single candidate has kurtosis -1, and at every k at least 2 exactly one
candidate (the first, kurtosis 2) exceeds 0 while the k - 1 others have
kurtosis -1. -/
def exC3 : ℤ → Mat := fun k =>
  if k ≤ 1 then List.replicate k.toNat [1, -1, 0, 0]
  else [9, -9, 0, 0, 0, 0, 0, 0, 0, 0] :: List.replicate (k.toNat - 1) [1, -1, 0, 0]

/-- Column j of m, the feature column the axis=0 reductions range over. -/
def col (m : Mat) (j : ℕ) : List ℚ := m.map (fun row => row.getD j 0)

/-- subject_data.mean(axis=0): the per-feature means. -/
def colMeans (m : Mat) : List ℚ :=
  (List.range (shape1 m)).map (fun j => mean (col m j))

/-- subject_data -= subject_data.mean(axis=0): subtract from every row the
per-feature mean vector. -/
def centerMat (m : Mat) : Mat :=
  m.map (fun row => List.zipWith (fun x mu => x - mu) row (colMeans m))

/-- The guard std[std == 0] = 1 of fit: every exactly-zero entry of the
per-feature standard deviation vector is replaced by 1 before dividing. -/
def adjustStd (std : List ℚ) : List ℚ := std.map (fun s => if s = 0 then 1 else s)

/-- subject_data /= std: divide every row featurewise by the (adjusted)
standard deviation vector. -/
def divideByStd (m : Mat) (std : List ℚ) : Mat :=
  m.map (fun row => List.zipWith (fun x s => x / s) row std)

/-- The standardization lines of fit.  The standard deviation itself is a
float square root computed by numpy, a black-box numerical primitive here,
so the std vector enters as the output of an oracle stdOf. -/
def standardize (stdOf : Mat → List ℚ) (m : Mat) : Mat :=
  divideByStd m (adjustStd (stdOf m))

/-- The in-place preprocessing fit applies to one subject's matrix before
the SVD: center; if smoothing is configured, smooth (black box smoothOf,
the memory-cached smooth_from_mask) and re-center; then standardize. -/
def subjectPreprocess (smoothOf : Option (Mat → Mat)) (stdOf : Mat → List ℚ) (m : Mat) : Mat :=
  let c := centerMat m
  let c :=
    match smoothOf with
    | none => c
    | some s => centerMat (s c)
  standardize stdOf c

/-- The mutable store of numpy buffers: address a holds bufs[a].  Python
variables hold addresses; in-place numpy operations overwrite the buffer at
an address, and fresh arrays append a buffer. -/
structure Heap where
  bufs : List Mat

/-- The matrix stored at address a. -/
def readBuf (h : Heap) (a : ℕ) : Mat := h.bufs.getD a []

/-- Overwrite the buffer at address a in place. -/
def writeBuf (h : Heap) (a : ℕ) (m : Mat) : Heap := ⟨h.bufs.set a m⟩

/-- Allocate a fresh buffer holding m, returning its address. -/
def allocBuf (h : Heap) (m : Mat) : Heap × ℕ := (⟨h.bufs ++ [m]⟩, h.bufs.length)

/-- data = copy.deepcopy(data) (equivalently data.copy() for an array of
subjects): allocate one fresh buffer per subject, holding a copy of the
subject's matrix, and return the fresh addresses in order. -/
def deepcopy : Heap → List ℕ → Heap × List ℕ
  | h, [] => (h, [])
  | h, a :: rest =>
    let p := allocBuf h (readBuf h a)
    let q := deepcopy p.1 rest
    (q.1, p.2 :: q.2)

/-- The opening of fit up to the SVD calls: take the private copy of the
caller's subject list, then run the in-place preprocessing on each copied
buffer (the -= and /= statements write through the copied addresses).
Returns the heap after the writes together with the copy's addresses. -/
def fitPrep (smoothOf : Option (Mat → Mat)) (stdOf : Mat → List ℚ)
    (h : Heap) (addrs : List ℕ) : Heap × List ℕ :=
  let p := deepcopy h addrs
  (p.2.foldl (fun hh a => writeBuf hh a (subjectPreprocess smoothOf stdOf (readBuf hh a))) p.1,
   p.2)

/-- argsort returns a permutation of the index range. -/
lemma argsort_perm (xs : List ℚ) : (argsort xs).Perm (List.range xs.length) :=
  List.perm_insertionSort _ _

/-- Membership in argsort is exactly being a valid index. -/
lemma mem_argsort (xs : List ℚ) (i : ℕ) : i ∈ argsort xs ↔ i < xs.length := by
  rw [(argsort_perm xs).mem_iff, List.mem_range]

/-- argsort has one entry per element. -/
lemma argsort_length (xs : List ℚ) : (argsort xs).length = xs.length := by
  rw [(argsort_perm xs).length_eq, List.length_range]

/-- Reading a list back off the index range. -/
lemma map_getD_range (l : List ℚ) :
    (List.range l.length).map (fun i => l.getD i 0) = l := by
  induction l with
  | nil => simp
  | cons a t ih =>
    rw [List.length_cons, List.range_succ_eq_map, List.map_cons, List.map_map]
    have hc : (fun i => (a :: t).getD i 0) ∘ Nat.succ = fun i => t.getD i 0 := by
      funext i
      simp [List.getD_cons_succ]
    rw [List.getD_cons_zero, hc, ih]

/-- Ordered insertion of a keeps the list pairwise-ordered under the strict
key-then-index order, provided a's index is below every index present: this
is the stability of insertion sort on an index list. -/
lemma orderedInsert_pairwise (key : ℕ → ℚ) (a : ℕ) :
    ∀ L : List ℕ, List.Pairwise (fun i j => key i < key j ∨ (key i = key j ∧ i < j)) L →
      (∀ b ∈ L, a < b) →
      List.Pairwise (fun i j => key i < key j ∨ (key i = key j ∧ i < j))
        (List.orderedInsert (fun i j => key i ≤ key j) a L)
  | [], _, _ => by simp [List.orderedInsert]
  | b :: L, hP, ha => by
    rcases List.pairwise_cons.mp hP with ⟨hbL, hPL⟩
    by_cases hab : key a ≤ key b
    · rw [List.orderedInsert, if_pos hab]
      refine List.pairwise_cons.mpr ⟨?_, hP⟩
      intro c hc
      rcases List.mem_cons.mp hc with rfl | hcL
      · rcases lt_or_eq_of_le hab with h | h
        · exact Or.inl h
        · exact Or.inr ⟨h, ha _ (List.mem_cons_self _ _)⟩
      · rcases hbL c hcL with h | ⟨he, _⟩
        · exact Or.inl (lt_of_le_of_lt hab h)
        · rcases lt_or_eq_of_le hab with h2 | h2
          · exact Or.inl (lt_of_lt_of_eq h2 he)
          · exact Or.inr ⟨h2.trans he, ha _ (List.mem_cons_of_mem _ hcL)⟩
    · rw [List.orderedInsert, if_neg hab]
      refine List.pairwise_cons.mpr ⟨?_, ?_⟩
      · intro c hc
        have hc2 : c ∈ a :: L :=
          (List.perm_orderedInsert (fun i j => key i ≤ key j) a L).mem_iff.mp hc
        rcases List.mem_cons.mp hc2 with rfl | hcL
        · exact Or.inl (lt_of_not_le hab)
        · exact hbL c hcL
      · exact orderedInsert_pairwise key a L hPL
          (fun c hc => ha c (List.mem_cons_of_mem _ hc))

/-- Insertion sort of a strictly increasing index list is sorted under the
strict key-then-index order: ascending keys, equal keys in index order. -/
lemma insertionSort_pairwise (key : ℕ → ℚ) :
    ∀ l : List ℕ, List.Pairwise (fun i j => i < j) l →
      List.Pairwise (fun i j => key i < key j ∨ (key i = key j ∧ i < j))
        (List.insertionSort (fun i j => key i ≤ key j) l)
  | [], _ => by simp
  | a :: l, h => by
    rw [List.insertionSort]
    rcases List.pairwise_cons.mp h with ⟨h1, h2⟩
    refine orderedInsert_pairwise key a _ (insertionSort_pairwise key l h2) ?_
    intro b hb
    exact h1 b ((List.perm_insertionSort _ l).mem_iff.mp hb)

/-- argsort is ascending in the key, with ties in ascending index order. -/
lemma argsort_pairwise (xs : List ℚ) :
    List.Pairwise
      (fun i j => xs.getD i 0 < xs.getD j 0 ∨ (xs.getD i 0 = xs.getD j 0 ∧ i < j))
      (argsort xs) :=
  insertionSort_pairwise (fun i => xs.getD i 0) _ (List.pairwise_lt_range _)

/-- An in-range getD is a member. -/
lemma getD_mem_of_lt (l : Mat) (i : ℕ) (h : i < l.length) : l.getD i [] ∈ l := by
  rw [List.getD_eq_getElem?_getD, List.getElem?_eq_getElem h]
  exact List.getElem_mem h

/-- The selection keeps min(n, candidate count) rows. -/
lemma selectTop_length (n : ℤ) (ica : Mat) :
    (selectTop n ica).length = min n.toNat ica.length := by
  rw [selectTop, List.length_map, List.length_take, List.length_reverse,
    argsort_length, List.length_map]

/-- Every selected row is one of the candidate rows. -/
lemma selectTop_mem (n : ℤ) (ica : Mat) (row : List ℚ) (h : row ∈ selectTop n ica) :
    ∃ i, i < ica.length ∧ row = ica.getD i [] := by
  rcases List.mem_map.mp h with ⟨i, hi, rfl⟩
  have h2 : i ∈ argsort (ica.map kurtosis) :=
    List.mem_reverse.mp (List.mem_of_mem_take hi)
  have h3 := (mem_argsort _ _).mp h2
  rw [List.length_map] at h3
  exact ⟨i, h3, rfl⟩

/-- In a weakly descending list, if at least k entries satisfy an
upward-closed predicate then the first k entries all satisfy it. -/
lemma take_pos_of_sorted (p : ℚ → Bool)
    (hmono : ∀ x y : ℚ, x ≤ y → p x = true → p y = true) :
    ∀ (l : List ℚ) (k : ℕ), List.Pairwise (fun a b => b ≤ a) l →
      k ≤ l.countP p → ∀ v ∈ l.take k, p v = true
  | _, 0, _, _ => by simp
  | [], _ + 1, _, _ => by simp
  | a :: t, k + 1, hP, hc => by
    rcases List.pairwise_cons.mp hP with ⟨hat, hPt⟩
    have hpa : p a = true := by
      by_contra hpa
      have hall : (a :: t).countP p = 0 := by
        rw [List.countP_eq_zero]
        intro b hb
        rcases List.mem_cons.mp hb with rfl | hbt
        · exact hpa
        · intro hpb
          exact hpa (hmono b a (hat b hbt) hpb)
      omega
    intro v hv
    rw [List.take_succ_cons] at hv
    rcases List.mem_cons.mp hv with rfl | hvt
    · exact hpa
    · have hct : k ≤ t.countP p := by
        have hcc := List.countP_cons p a t
        rw [hpa, if_pos rfl] at hcc
        omega
      exact take_pos_of_sorted p hmono t k hPt hct v hvt

/-- With the resolved default threshold, float -inf, every candidate's
kurtosis passes the strict comparison. -/
lemma passCount_bot (ica : Mat) : passCount ⊥ ica = ica.length := by
  rw [passCount]
  have h : ∀ q ∈ ica.map kurtosis,
      (fun (q : ℚ) => decide ((⊥ : WithBot ℚ) < (q : WithBot ℚ))) q = true := by
    intro q _
    simp [WithBot.bot_lt_coe q]
  rw [List.countP_eq_length.mpr h, List.length_map]

/-- Inversion of the loop: any accepted result arose at some working count
n at or above the entry count, with the pass count at n at least n, and is
exactly the top-n selection of that iteration's candidates. -/
lemma escalateLoop_accepted (extract : ℤ → Mat) (thr : WithBot ℚ) :
    ∀ (fuel : ℕ) (k : ℤ) (m : Mat), escalateLoop extract thr fuel k = .accepted m →
      ∃ n : ℤ, k ≤ n ∧ 1 ≤ n ∧ (n : ℤ) ≤ (passCount thr (extract n) : ℤ) ∧
        m = selectTop n (extract n)
  | 0, k, m => by simp [escalateLoop]
  | fuel + 1, k, m => by
    intro h
    rw [escalateLoop] at h
    by_cases hg : k < 3 * k
    · rw [if_pos hg] at h
      by_cases ha : (k : ℤ) ≤ (passCount thr (extract k) : ℤ)
      · rw [if_pos ha] at h
        refine ⟨k, le_refl k, by omega, ha, ?_⟩
        cases h
        rfl
      · rw [if_neg ha] at h
        rcases escalateLoop_accepted extract thr fuel (k + 1) m h with ⟨n, hn, h1, hp, hm⟩
        exact ⟨n, by omega, h1, hp, hm⟩
    · rw [if_neg hg] at h
      cases h

/-- On the only reachable path, threshold resolved to -inf, acceptance is
immediate: the first iteration already accepts, with the entry count. -/
lemma escalateLoop_bot_accepted (extract : ℤ → Mat) (fuel : ℕ) (k : ℤ) (m : Mat)
    (hlen : 1 ≤ k → (extract k).length = k.toNat)
    (h : escalateLoop extract ⊥ fuel k = .accepted m) :
    1 ≤ k ∧ m = selectTop k (extract k) := by
  cases fuel with
  | zero => simp [escalateLoop] at h
  | succ fuel =>
    rw [escalateLoop] at h
    by_cases hg : k < 3 * k
    · have hk : (1 : ℤ) ≤ k := by omega
      have ha : (k : ℤ) ≤ (passCount ⊥ (extract k) : ℤ) := by
        rw [passCount_bot, hlen hk]
        omega
      rw [if_pos hg, if_pos ha] at h
      cases h
      exact ⟨hk, rfl⟩
    · rw [if_neg hg] at h
      cases h

/-- Reading the kurtosis vector at a valid index gives the row's kurtosis. -/
lemma kurtList_getD (ica : Mat) (i : ℕ) (h : i < ica.length) :
    (ica.map kurtosis).getD i 0 = kurtosis (ica.getD i []) := by
  rw [List.getD_eq_getElem?_getD, List.getD_eq_getElem?_getD, List.getElem?_map,
    List.getElem?_eq_getElem h]
  simp

/-- If at least n candidates pass the strict kurtosis comparison, then all
rows kept by the top-n selection pass it: the selection takes the n largest
kurtoses, and n passing candidates force the n largest to pass. -/
lemma selectTop_pass (thr : WithBot ℚ) (n : ℤ) (ica : Mat)
    (hn : (n : ℤ) ≤ (passCount thr ica : ℤ)) :
    ∀ row ∈ selectTop n ica, thr < (kurtosis row : WithBot ℚ) := by
  intro row hrow
  set kurt : List ℚ := ica.map kurtosis with hkurt
  set key : ℕ → ℚ := fun i => kurt.getD i 0 with hkey
  set p : ℚ → Bool := fun q => decide (thr < (q : WithBot ℚ)) with hp
  set ord : List ℕ := (argsort kurt).reverse with hord
  rcases List.mem_map.mp hrow with ⟨i, hi, rfl⟩
  have hperm : ord.Perm (List.range kurt.length) :=
    (List.reverse_perm _).trans (argsort_perm kurt)
  have hvals : (ord.map key).Perm kurt := by
    have h1 : (ord.map key).Perm ((List.range kurt.length).map key) := hperm.map key
    rw [hkey, map_getD_range kurt] at h1
    exact h1
  have hdesc : List.Pairwise (fun a b => b ≤ a) (ord.map key) := by
    rw [List.pairwise_map]
    have h1 := argsort_pairwise kurt
    have h2 : List.Pairwise
        (fun i j => kurt.getD j 0 < kurt.getD i 0 ∨
          (kurt.getD j 0 = kurt.getD i 0 ∧ j < i)) ord := by
      rw [hord, List.pairwise_reverse]
      exact h1
    refine h2.imp ?_
    intro a b hab
    rcases hab with h | ⟨h, _⟩
    · exact le_of_lt h
    · exact le_of_eq h
  have hmono : ∀ x y : ℚ, x ≤ y → p x = true → p y = true := by
    intro x y hxy hx
    rw [hp, decide_eq_true_iff] at hx ⊢
    exact lt_of_lt_of_le hx (WithBot.coe_le_coe.mpr hxy)
  have hcount : n.toNat ≤ (ord.map key).countP p := by
    rw [hvals.countP_eq p]
    have : passCount thr ica = kurt.countP p := by
      rw [passCount, hkurt, hp]
    omega
  have hkeyi : key i ∈ (ord.map key).take n.toNat := by
    rw [← List.map_take]
    exact List.mem_map_of_mem key hi
  have hpass := take_pos_of_sorted p hmono (ord.map key) n.toNat hdesc hcount (key i) hkeyi
  have hilt : i < ica.length := by
    have h2 : i ∈ argsort kurt := List.mem_reverse.mp (List.mem_of_mem_take hi)
    have h3 := (mem_argsort _ _).mp h2
    rw [hkurt, List.length_map] at h3
    exact h3
  rw [hp, decide_eq_true_iff] at hpass
  have hki : key i = kurtosis (ica.getD i []) := by
    simp only [hkey, hkurt]
    exact kurtList_getD ica i hilt
  rw [hki] at hpass
  exact hpass

/-- The squared rational comparison of belowCutoff is exactly the source's
float comparison np.abs(x) < threshold / np.sqrt(n_features), read over ℝ,
for any number of features at least 1 and any sign of the threshold. -/
lemma belowCutoff_iff (t x : ℚ) (f : ℕ) (hf : 1 ≤ f) :
    belowCutoff t f x = true ↔ |(x : ℝ)| < (t : ℝ) / Real.sqrt (f : ℝ) := by
  have hf0 : (0 : ℝ) < (f : ℝ) := by
    have : 0 < f := by omega
    exact_mod_cast this
  have hs : (0 : ℝ) < Real.sqrt (f : ℝ) := Real.sqrt_pos.mpr hf0
  have hb : belowCutoff t f x = true ↔ (0 ≤ t ∧ x ^ 2 * (f : ℚ) < t ^ 2) := by
    simp [belowCutoff]
  rw [hb]
  by_cases ht : 0 ≤ t
  · have ht' : (0 : ℝ) ≤ (t : ℝ) := by exact_mod_cast ht
    have habs : (0 : ℝ) ≤ |(x : ℝ)| * Real.sqrt (f : ℝ) :=
      mul_nonneg (abs_nonneg _) hs.le
    have hchain : |(x : ℝ)| < (t : ℝ) / Real.sqrt (f : ℝ) ↔
        x ^ 2 * (f : ℚ) < t ^ 2 := by
      rw [lt_div_iff₀ hs]
      rw [← pow_lt_pow_iff_left₀ habs ht' two_ne_zero]
      rw [mul_pow, sq_abs, Real.sq_sqrt hf0.le]
      constructor
      · intro h
        have hcast : ((x ^ 2 * (f : ℚ) : ℚ) : ℝ) < ((t ^ 2 : ℚ) : ℝ) := by
          push_cast
          exact h
        exact_mod_cast hcast
      · intro h
        have hcast : ((x ^ 2 * (f : ℚ) : ℚ) : ℝ) < ((t ^ 2 : ℚ) : ℝ) := by
          exact_mod_cast h
        push_cast at hcast
        exact hcast
    rw [hchain]
    simp [ht]
  · have ht2 : (t : ℝ) < 0 := by
      have : t < 0 := lt_of_not_le ht
      exact_mod_cast this
    have hneg : (t : ℝ) / Real.sqrt (f : ℝ) < 0 := div_neg_of_neg_of_pos ht2 hs
    constructor
    · intro h
      exact absurd h.1 ht
    · intro h
      exact absurd (lt_of_le_of_lt (abs_nonneg _) h) (by linarith)

/-- The top-n selection of an n-by-c candidate matrix is again n-by-c. -/
lemma selectTop_shape (n : ℤ) (ica : Mat) (c : ℕ)
    (hsh : isShape ica n.toNat c) : isShape (selectTop n ica) n.toNat c := by
  constructor
  · rw [selectTop_length, hsh.1, min_self]
  · intro row hrow
    rcases selectTop_mem n ica row hrow with ⟨i, hi, rfl⟩
    exact hsh.2 _ (getD_mem_of_lt ica i hi)

/-- Thresholding changes entries only, never the shape. -/
lemma thresholdMaps_shape (t : ℚ) (m : Mat) (r c : ℕ) (h : isShape m r c) :
    isShape (thresholdMaps t m) r c := by
  constructor
  · rw [thresholdMaps, List.length_map, h.1]
  · intro row hrow
    rcases List.mem_map.mp hrow with ⟨row0, hrow0, rfl⟩
    rw [List.length_map]
    exact h.2 row0 hrow0

/-- A nonempty r-by-c matrix has c columns in the shape[1] sense. -/
lemma shape1_of_isShape (m : Mat) (r c : ℕ) (h : isShape m r c) (hr : 1 ≤ r) :
    shape1 m = c := by
  cases m with
  | nil =>
    rw [← h.1] at hr
    simp at hr
  | cons a _ =>
    exact h.2 a (List.mem_cons_self _ _)

/-- Inversion of fit's success: maps_ is only ever published on the default
kurtosis_thr = False path, with the threshold resolved to -inf, and equals
the thresholded accepted candidate selection. -/
lemma fitModel_fitted (cfg : Config) (extract : ℤ → Mat) (fuel : ℕ) (maps : Mat)
    (h : fitModel cfg extract fuel = .fitted maps) :
    cfg.kurtosis_thr = none ∧
      ∃ ica, escalateLoop extract ⊥ fuel cfg.n_components = .accepted ica ∧
        maps = thresholdMaps cfg.threshold ica := by
  cases hth : cfg.kurtosis_thr with
  | some t =>
    rw [fitModel, hth] at h
    cases h
  | none =>
    rw [fitModel, hth] at h
    refine ⟨rfl, ?_⟩
    cases hloop : escalateLoop extract ⊥ fuel cfg.n_components with
    | raised =>
      rw [resolveKurtThr] at h
      simp only [hloop] at h
      cases h
    | diverged =>
      rw [resolveKurtThr] at h
      simp only [hloop] at h
      cases h
    | accepted ica =>
      rw [resolveKurtThr] at h
      simp only [hloop] at h
      cases h
      exact ⟨ica, rfl, rfl⟩

/-- The shape hypothesis of the claims, discharged for the concrete oracle. -/
lemma exW_isShape : ∀ k : ℤ, 1 ≤ k → isShape (exW k) k.toNat 2 := by
  intro k _
  constructor
  · rw [exW, List.length_replicate]
  · intro row hrow
    rw [List.eq_of_mem_replicate hrow]
    rfl

/-- A concrete successful fit of the model: one component requested, the
default kurtosis threshold, threshold 1, two features. -/
lemma exW_fit : fitModel ⟨1, 1, none⟩ exW 1 = .fitted [[1, 1]] := by
  norm_num [fitModel, resolveKurtThr, escalateLoop, passCount, exW, kurtosis, mean,
    List.countP, List.countP.go, selectTop, argsort, List.insertionSort,
    List.orderedInsert, List.range_succ, List.replicate, thresholdMaps,
    belowCutoff, shape1, WithBot.bot_lt_coe]

/-- C1: whenever fit succeeds (returns fitted maps_) on candidates that have
f features, maps_ has exactly the requested n_components rows and f
columns.  On every successful path the threshold has resolved to -inf, all
candidates pass, and acceptance is immediate at the requested count, so the
selection keeps exactly n_components of the n_components candidates; the
thresholding that follows preserves the shape. -/
theorem C1_shape_invariant (cfg : Config) (extract : ℤ → Mat) (fuel : ℕ) (maps : Mat)
    (f : ℕ)
    (hshape : ∀ k : ℤ, 1 ≤ k → isShape (extract k) k.toNat f)
    (hfit : fitModel cfg extract fuel = .fitted maps) :
    (maps.length : ℤ) = cfg.n_components ∧ ∀ row ∈ maps, row.length = f := by
  rcases fitModel_fitted cfg extract fuel maps hfit with ⟨hthr, ica, hloop, rfl⟩
  obtain ⟨hk, rfl⟩ := escalateLoop_bot_accepted extract fuel cfg.n_components ica
    (fun hk => (hshape _ hk).1) hloop
  have hsh : isShape (thresholdMaps cfg.threshold
      (selectTop cfg.n_components (extract cfg.n_components))) cfg.n_components.toNat f :=
    thresholdMaps_shape _ _ _ _ (selectTop_shape _ _ _ (hshape _ hk))
  refine ⟨?_, hsh.2⟩
  rw [hsh.1]
  omega

/-- C1 witness: the theorem applied to the concrete one-component fit. -/
theorem C1_shape_invariant_witness :
    ((([[1, 1]] : Mat).length : ℤ) = (1 : ℤ)) ∧ ∀ row ∈ ([[1, 1]] : Mat), row.length = 2 :=
  C1_shape_invariant ⟨1, 1, none⟩ exW 1 [[1, 1]] 2 exW_isShape exW_fit

/-- C5: with kurtosis_thr set to anything other than False, every fit call
fails with the unbound-local error raised while resolving the threshold
(the statement kurtosis_thr = kurtosis_thr reads the local before any
assignment), whatever the data and before any component extraction: the
outcome does not depend on the extraction oracle or the fuel at all. -/
theorem C5_unbound_local (cfg : Config) (t : ℚ) (hthr : cfg.kurtosis_thr = some t)
    (extract : ℤ → Mat) (fuel : ℕ) :
    fitModel cfg extract fuel = .err .unboundLocal := by
  rw [fitModel, hthr]
  rfl

/-- C5 witness: the concrete configuration with kurtosis_thr = 0.5. -/
theorem C5_unbound_local_witness :
    fitModel ⟨1, 1, some (1 / 2)⟩ exW 1 = .err .unboundLocal :=
  C5_unbound_local ⟨1, 1, some (1 / 2)⟩ (1 / 2) rfl exW 1

/-- C6: after a successful fit with threshold t on f-feature candidates,
every entry of maps_ is exactly zero or at least t / sqrt(f) in absolute
value; no entry lies strictly between zero and the cutoff in magnitude. -/
theorem C6_sparsification (cfg : Config) (extract : ℤ → Mat) (fuel : ℕ) (maps : Mat)
    (f : ℕ) (hf : 1 ≤ f)
    (hshape : ∀ k : ℤ, 1 ≤ k → isShape (extract k) k.toNat f)
    (hfit : fitModel cfg extract fuel = .fitted maps) :
    ∀ row ∈ maps, ∀ x ∈ row,
      x = 0 ∨ (cfg.threshold : ℝ) / Real.sqrt (f : ℝ) ≤ |(x : ℝ)| := by
  rcases fitModel_fitted cfg extract fuel maps hfit with ⟨hthr, ica, hloop, rfl⟩
  obtain ⟨hk, rfl⟩ := escalateLoop_bot_accepted extract fuel cfg.n_components ica
    (fun hk => (hshape _ hk).1) hloop
  have hsel : isShape (selectTop cfg.n_components (extract cfg.n_components))
      cfg.n_components.toNat f := selectTop_shape _ _ _ (hshape _ hk)
  have hs1 : shape1 (selectTop cfg.n_components (extract cfg.n_components)) = f :=
    shape1_of_isShape _ _ _ hsel (by omega)
  intro row hrow x hx
  rw [thresholdMaps] at hrow
  rcases List.mem_map.mp hrow with ⟨row0, _, rfl⟩
  rcases List.mem_map.mp hx with ⟨y, _, rfl⟩
  by_cases hb : belowCutoff cfg.threshold
      (shape1 (selectTop cfg.n_components (extract cfg.n_components))) y = true
  · left
    rw [if_pos hb]
  · right
    rw [if_neg hb]
    rw [hs1] at hb
    have hnot := (belowCutoff_iff cfg.threshold y f hf).not.mp hb
    exact le_of_not_lt hnot

/-- C6 witness: the theorem at the concrete fit, read off at entry (0, 0);
with threshold 1 on two features the surviving entry 1 is zero or at least
1 / sqrt(2) in magnitude. -/
theorem C6_sparsification_witness :
    (1 : ℚ) = 0 ∨ (((⟨1, 1, none⟩ : Config).threshold : ℝ) / Real.sqrt ((2 : ℕ) : ℝ) ≤
      |((1 : ℚ) : ℝ)|) :=
  C6_sparsification ⟨1, 1, none⟩ exW 1 [[1, 1]] 2 (by omega) exW_isShape exW_fit
    [1, 1] (by simp) 1 (by simp)

/-- The kurtosis of the row [1, -1, 0, 0] is -1. -/
lemma kurtosis_skew_row : kurtosis [1, -1, 0, 0] = -1 := by
  norm_num [kurtosis, mean]

/-- Against the threshold 0, no candidate of the exC2 oracle ever passes. -/
lemma passCount_exC2 (k : ℤ) : passCount ((0 : ℚ) : WithBot ℚ) (exC2 k) = 0 := by
  rw [passCount, exC2]
  rw [List.map_replicate, kurtosis_skew_row, List.countP_eq_zero]
  intro a ha
  rw [List.eq_of_mem_replicate ha]
  norm_num [WithBot.coe_lt_coe]

/-- From any positive working count, the loop on the never-passing oracle is
still running when any finite fuel runs out: it escalates forever. -/
lemma escalateLoop_exC2_diverged :
    ∀ (fuel : ℕ) (k : ℤ), 1 ≤ k →
      escalateLoop exC2 ((0 : ℚ) : WithBot ℚ) fuel k = .diverged
  | 0, _, _ => rfl
  | fuel + 1, k, hk => by
    rw [escalateLoop, if_pos (by omega : k < 3 * k)]
    rw [if_neg (by rw [passCount_exC2]; omega)]
    exact escalateLoop_exC2_diverged fuel (k + 1) (by omega)

/-- C2: the escalation loop is not bounded by any attempts budget.  First,
on a concrete input where no iteration's passing count ever reaches the
acceptance bar (threshold 0, every candidate of kurtosis -1), the loop has
neither raised nor terminated after any finite number of iterations: the
guard n_components < 3 * n_components compares the working count with
triple itself and stays true, so the kurtosis ValueError is never reached.
Second, from any positive starting count whatsoever the loop can never end
in the raised outcome, whatever the oracle, the threshold and the fuel. -/
theorem C2_escalation_unbounded :
    (∀ fuel : ℕ, escalateLoop exC2 ((0 : ℚ) : WithBot ℚ) fuel 1 = .diverged) ∧
    (∀ (extract : ℤ → Mat) (thr : WithBot ℚ) (fuel : ℕ) (n : ℕ),
      escalateLoop extract thr fuel ((n : ℤ) + 1) ≠ .raised) := by
  constructor
  · intro fuel
    exact escalateLoop_exC2_diverged fuel 1 (by omega)
  · intro extract thr fuel
    induction fuel with
    | zero =>
      intro n
      simp [escalateLoop]
    | succ fuel ih =>
      intro n
      rw [escalateLoop, if_pos (by omega : ((n : ℤ) + 1) < 3 * ((n : ℤ) + 1))]
      by_cases ha : ((n : ℤ) + 1) ≤ (passCount thr (extract ((n : ℤ) + 1)) : ℤ)
      · rw [if_pos ha]
        intro h
        cases h
      · rw [if_neg ha]
        have hcast : (n : ℤ) + 1 + 1 = ((n + 1 : ℕ) : ℤ) + 1 := by
          push_cast
          ring
        rw [hcast]
        exact ih (n + 1)

/-- C3 counterexample: at working count 2 the passing count (1) reaches the
originally requested count (1), yet the loop started at 1 does not accept
there (it keeps escalating and is still running after 5 iterations), because
the code compares the passing count against the escalated working count. -/
theorem C3_acceptance_bar_cex :
    (1 : ℤ) ≤ (passCount ((0 : ℚ) : WithBot ℚ) (exC3 2) : ℤ) ∧
    escalateLoop exC3 ((0 : ℚ) : WithBot ℚ) 5 1 = .diverged := by
  constructor
  · norm_num [passCount, exC3, kurtosis, mean, List.countP, List.countP.go,
      List.replicate, WithBot.coe_lt_coe]
  · norm_num [escalateLoop, passCount, exC3, kurtosis, mean, List.countP,
      List.countP.go, List.replicate, WithBot.coe_lt_coe]

/-- C3 amended: in every iteration at working count k, acceptance compares
the passing count against the current working count k itself, not against
the original request, and on acceptance the top k (not the original
n_components) candidates by descending kurtosis are kept, so the accepted
matrix has k rows. -/
theorem C3_acceptance_bar (extract : ℤ → Mat) (thr : WithBot ℚ) (fuel : ℕ) (k : ℤ)
    (f : ℕ) (hk : 1 ≤ k) (hsh : isShape (extract k) k.toNat f) :
    ((k : ℤ) ≤ (passCount thr (extract k) : ℤ) →
      escalateLoop extract thr (fuel + 1) k = .accepted (selectTop k (extract k)) ∧
      (selectTop k (extract k)).length = k.toNat) ∧
    ((passCount thr (extract k) : ℤ) < k →
      escalateLoop extract thr (fuel + 1) k = escalateLoop extract thr fuel (k + 1)) := by
  constructor
  · intro ha
    constructor
    · rw [escalateLoop, if_pos (by omega : k < 3 * k), if_pos ha]
    · rw [selectTop_length, hsh.1, min_self]
  · intro ha
    rw [escalateLoop, if_pos (by omega : k < 3 * k), if_neg (by omega)]

/-- C3 witness: the amended decision rule at the concrete first iteration. -/
theorem C3_acceptance_bar_witness :
    (((1 : ℤ) ≤ (passCount ⊥ (exW 1) : ℤ) →
      escalateLoop exW ⊥ 1 1 = .accepted (selectTop 1 (exW 1)) ∧
      (selectTop 1 (exW 1)).length = (1 : ℤ).toNat) ∧
    ((passCount ⊥ (exW 1) : ℤ) < 1 →
      escalateLoop exW ⊥ 1 1 = escalateLoop exW ⊥ 0 (1 + 1))) :=
  C3_acceptance_bar exW ⊥ 0 1 2 (by omega) (exW_isShape 1 (by omega))

/-- C4: as a property of the escalation loop the acceptance guarantee is
real, in every accepted result each kept row's kurtosis strictly exceeds
the threshold the loop ran with, but fit can never exercise it: every
configuration with a non-default kurtosis threshold makes fit raise the
unbound-local error before the loop, so no successful fit with a finite
threshold exists. -/
theorem C4_kurtosis_acceptance :
    (∀ (cfg : Config) (t : ℚ) (extract : ℤ → Mat) (fuel : ℕ),
      cfg.kurtosis_thr = some t → fitModel cfg extract fuel = .err .unboundLocal) ∧
    (∀ (extract : ℤ → Mat) (t : ℚ) (fuel : ℕ) (k : ℤ) (m : Mat),
      escalateLoop extract ((t : ℚ) : WithBot ℚ) fuel k = .accepted m →
      ∀ row ∈ m, t < kurtosis row) := by
  constructor
  · intro cfg t extract fuel hthr
    rw [fitModel, hthr]
    rfl
  · intro extract t fuel k m hacc row hrow
    rcases escalateLoop_accepted extract _ fuel k m hacc with ⟨n, _, _, hp, rfl⟩
    exact WithBot.coe_lt_coe.mp (selectTop_pass _ n (extract n) hp row hrow)

/-- C7 counterexample: two candidates of equal kurtosis; selecting the top 1
keeps the candidate of index 1, not the lowest index 0 that the claimed tie
rule requires. -/
theorem C7_tie_break_cex :
    kurtosis [1, -1, 0, 0] = kurtosis [2, -2, 0, 0] ∧
    selectTop 1 [[1, -1, 0, 0], [2, -2, 0, 0]] = [[2, -2, 0, 0]] := by
  constructor
  · norm_num [kurtosis, mean]
  · norm_num [selectTop, argsort, kurtosis, mean, List.insertionSort,
      List.orderedInsert, List.range_succ]

/-- C7 amended: the selection order is a deterministic function of the
kurtosis vector, a permutation of the candidate indices sorted by
descending kurtosis, with candidates of equal kurtosis ordered by
descending original index, the higher index wins, because the stable
ascending argsort is reversed wholesale. -/
theorem C7_tie_break (xs : List ℚ) :
    ((argsort xs).reverse).Perm (List.range xs.length) ∧
    List.Pairwise
      (fun i j => xs.getD j 0 < xs.getD i 0 ∨ (xs.getD j 0 = xs.getD i 0 ∧ j < i))
      ((argsort xs).reverse) := by
  constructor
  · exact (List.reverse_perm _).trans (argsort_perm xs)
  · rw [List.pairwise_reverse]
    refine (argsort_pairwise xs).imp ?_
    intro a b hab
    rcases hab with h | ⟨h, h2⟩
    · exact Or.inl h
    · exact Or.inr ⟨h, h2⟩

/-- Unfolding the dot product one coordinate. -/
lemma dotL_cons (x y : ℚ) (u v : List ℚ) : dotL (x :: u) (y :: v) = x * y + dotL u v := by
  rw [dotL, dotL, List.zipWith_cons_cons, List.sum_cons]

/-- The dot product is linear in its first argument, taken over two vectors
of one length. -/
lemma dotL_linear (a b : ℚ) :
    ∀ (r1 r2 c : List ℚ), r1.length = r2.length →
      dotL (List.zipWith (fun x y => a * x + b * y) r1 r2) c =
        a * dotL r1 c + b * dotL r2 c
  | [], [], c, _ => by
    simp [dotL]
  | [], _ :: _, _, h => by
    simp at h
  | _ :: _, [], _, h => by
    simp at h
  | x :: r1, y :: r2, [], _ => by
    simp [dotL]
  | x :: r1, y :: r2, z :: c, h => by
    rw [List.zipWith_cons_cons, dotL_cons, dotL_cons, dotL_cons,
      dotL_linear a b r1 r2 c (by simpa using h)]
    ring

/-- One row of the projection is linear in the input row. -/
lemma transform_row_linear (maps : Mat) (a b : ℚ) (r1 r2 : List ℚ)
    (h : r1.length = r2.length) :
    maps.map (fun mrow => dotL (List.zipWith (fun x y => a * x + b * y) r1 r2) mrow) =
      List.zipWith (fun x y => x + y)
        (List.map (fun x => a * x) (maps.map (fun mrow => dotL r1 mrow)))
        (List.map (fun x => b * x) (maps.map (fun mrow => dotL r2 mrow))) := by
  rw [List.map_map, List.map_map, List.zipWith_map_left, List.zipWith_map_right,
    List.zipWith_same]
  apply List.map_congr_left
  intro mrow _
  simp only [Function.comp_apply]
  rw [dotL_linear a b r1 r2 mrow h]

/-- C8: transform is exactly linear.  For inputs of one shape and any
scalars, transforming the linear combination is the same linear combination
of the transforms; transform itself is the single matrix product with the
transposed maps, a pure function with no model state involved. -/
theorem C8_transform_linear (maps X1 X2 : Mat) (a b : ℚ)
    (hsh : List.Forall₂ (fun r1 r2 => r1.length = r2.length) X1 X2) :
    transform maps (addM (smulM a X1) (smulM b X2)) =
      addM (smulM a (transform maps X1)) (smulM b (transform maps X2)) := by
  induction hsh with
  | nil => rfl
  | @cons r1 r2 t1 t2 h hs ih =>
    simp only [smulM, transform, addM, List.map_cons, List.zipWith_cons_cons] at ih ⊢
    congr 1
    have hrow : List.zipWith (fun x y => x + y)
        (List.map (fun x => a * x) r1) (List.map (fun x => b * x) r2) =
        List.zipWith (fun x y => a * x + b * y) r1 r2 := by
      rw [List.zipWith_map_left, List.zipWith_map_right]
    rw [hrow]
    exact transform_row_linear maps a b r1 r2 h

/-- C8 witness: the linearity identity at concrete matrices and scalars. -/
theorem C8_transform_linear_witness :
    transform [[1, 2]] (addM (smulM 2 [[1, 0]]) (smulM 3 [[0, 1]])) =
      addM (smulM 2 (transform [[1, 2]] [[1, 0]])) (smulM 3 (transform [[1, 2]] [[0, 1]])) :=
  C8_transform_linear [[1, 2]] [[1, 0]] [[0, 1]] 2 3
    (List.Forall₂.cons rfl List.Forall₂.nil)

/-- Dividing featurewise by the adjusted std leaves a zero-std feature
column untouched, coordinate by coordinate. -/
lemma zipWith_div_adjust :
    ∀ (j : ℕ) (row std : List ℚ), j < std.length → std.getD j 0 = 0 →
      (List.zipWith (fun x s => x / s) row (adjustStd std)).getD j 0 = row.getD j 0
  | _, _, [], hj, _ => by simp at hj
  | 0, [], s0 :: st, _, _ => by simp [adjustStd]
  | 0, x :: xr, s0 :: st, _, h0 => by
    rw [List.getD_cons_zero] at h0
    rw [adjustStd, List.map_cons, List.zipWith_cons_cons, List.getD_cons_zero,
      List.getD_cons_zero, if_pos h0, div_one]
  | j + 1, [], s0 :: st, _, _ => by simp
  | j + 1, x :: xr, s0 :: st, hj, h0 => by
    rw [List.length_cons] at hj
    rw [List.getD_cons_succ] at h0
    rw [adjustStd, List.map_cons, List.zipWith_cons_cons, List.getD_cons_succ,
      List.getD_cons_succ]
    exact zipWith_div_adjust j xr st (by omega) h0

/-- C9: the divisor guard of the standardization.  After std[std == 0] = 1,
no divisor is zero, so the featurewise division subject_data /= std is
defined everywhere; and each feature whose standard deviation was exactly
zero passes through the division unscaled, in every row of the matrix. -/
theorem C9_std_guard (m : Mat) (std : List ℚ) (j : ℕ)
    (hj : j < std.length) (h0 : std.getD j 0 = 0) :
    (∀ s ∈ adjustStd std, s ≠ 0) ∧
    ∀ i : ℕ, ((divideByStd m (adjustStd std)).getD i []).getD j 0 =
      (m.getD i []).getD j 0 := by
  constructor
  · intro s hs
    rcases List.mem_map.mp hs with ⟨s0, _, rfl⟩
    by_cases h : s0 = 0
    · rw [if_pos h]
      exact one_ne_zero
    · rw [if_neg h]
      exact h
  · intro i
    by_cases hi : i < m.length
    · have hrow : (divideByStd m (adjustStd std)).getD i [] =
          List.zipWith (fun x s => x / s) (m.getD i []) (adjustStd std) := by
        rw [divideByStd, List.getD_eq_getElem?_getD, List.getElem?_map,
          List.getElem?_eq_getElem hi, List.getD_eq_getElem?_getD,
          List.getElem?_eq_getElem hi]
        rfl
      rw [hrow]
      exact zipWith_div_adjust j (m.getD i []) std hj h0
    · have h1 : (divideByStd m (adjustStd std)).getD i [] = [] := by
        rw [List.getD_eq_getElem?_getD, List.getElem?_eq_none]
        · rfl
        · rw [divideByStd, List.length_map]
          omega
      have h2 : m.getD i [] = [] := by
        rw [List.getD_eq_getElem?_getD, List.getElem?_eq_none]
        · rfl
        · omega
      rw [h1, h2]

/-- C9 witness: a one-row matrix with a single zero-variance feature. -/
theorem C9_std_guard_witness :
    (∀ s ∈ adjustStd [0], s ≠ 0) ∧
    ∀ i : ℕ, ((divideByStd [[5]] (adjustStd [0])).getD i []).getD 0 0 =
      (([[5]] : Mat).getD i []).getD 0 0 :=
  C9_std_guard [[5]] [0] 0 (by simp) rfl

/-- The deep copy only appends buffers: the heap after it extends the heap
before it. -/
lemma deepcopy_bufs : ∀ (addrs : List ℕ) (h : Heap),
    ∃ extra, (deepcopy h addrs).1.bufs = h.bufs ++ extra
  | [], h => ⟨[], by simp [deepcopy]⟩
  | a :: rest, h => by
    rcases deepcopy_bufs rest ⟨h.bufs ++ [readBuf h a]⟩ with ⟨extra, hex⟩
    refine ⟨[readBuf h a] ++ extra, ?_⟩
    simp only [deepcopy, allocBuf]
    rw [hex, List.append_assoc]

/-- Every address the deep copy hands back is a fresh one: at or above the
original heap's size. -/
lemma deepcopy_fresh : ∀ (addrs : List ℕ) (h : Heap) (b : ℕ),
    b ∈ (deepcopy h addrs).2 → h.bufs.length ≤ b
  | [], h, b => by simp [deepcopy]
  | a :: rest, h, b => by
    intro hb
    simp only [deepcopy, allocBuf] at hb
    rcases List.mem_cons.mp hb with rfl | hb2
    · exact le_refl _
    · have hrec := deepcopy_fresh rest ⟨h.bufs ++ [readBuf h a]⟩ b hb2
      rw [List.length_append] at hrec
      simp at hrec
      omega

/-- Folding the in-place preprocessing writes over a set of addresses at or
above n does not change any buffer below n. -/
lemma foldl_write_preserves (smoothOf : Option (Mat → Mat)) (stdOf : Mat → List ℚ)
    (n a : ℕ) (ha : a < n) :
    ∀ (fresh : List ℕ) (hh : Heap), (∀ b ∈ fresh, n ≤ b) →
      readBuf (fresh.foldl
        (fun hh2 c => writeBuf hh2 c (subjectPreprocess smoothOf stdOf (readBuf hh2 c)))
        hh) a = readBuf hh a
  | [], hh, _ => rfl
  | c :: fresh, hh, hb => by
    rw [List.foldl_cons]
    rw [foldl_write_preserves smoothOf stdOf n a ha fresh _
      (fun b h2 => hb b (List.mem_cons_of_mem _ h2))]
    have hc : c ≠ a := by
      have := hb c (List.mem_cons_self _ _)
      omega
    rw [readBuf, readBuf, writeBuf]
    rw [List.getD_eq_getElem?_getD, List.getD_eq_getElem?_getD,
      List.getElem?_set_ne hc]
    rw [readBuf, List.getD_eq_getElem?_getD]

/-- C10: fit never mutates the caller's buffers.  The preprocessing stage
first takes the private deep copy of the subject list and then performs all
of its in-place writes, centering, optional smoothing, standardization,
through the freshly allocated addresses only, so every buffer that existed
before the call, in particular every caller-owned subject matrix, reads
back unchanged afterwards. -/
theorem C10_no_caller_mutation (smoothOf : Option (Mat → Mat)) (stdOf : Mat → List ℚ)
    (h : Heap) (addrs : List ℕ) (a : ℕ) (ha : a < h.bufs.length) :
    readBuf (fitPrep smoothOf stdOf h addrs).1 a = readBuf h a := by
  rw [fitPrep]
  simp only []
  rcases deepcopy_bufs addrs h with ⟨extra, hex⟩
  have hlow : a < (deepcopy h addrs).1.bufs.length := by
    rw [hex, List.length_append]
    omega
  rw [foldl_write_preserves smoothOf stdOf h.bufs.length a ha (deepcopy h addrs).2
    (deepcopy h addrs).1 (deepcopy_fresh addrs h)]
  rw [readBuf, readBuf, hex, List.getD_append _ _ _ _ ha]

/-- C10 witness: one caller buffer, preprocessed with no smoothing and an
irrelevant std oracle; the caller's buffer reads back unchanged. -/
theorem C10_no_caller_mutation_witness :
    readBuf (fitPrep none (fun _ => []) ⟨[[[5]]]⟩ [0]).1 0 = readBuf ⟨[[[5]]]⟩ 0 :=
  C10_no_caller_mutation none (fun _ => []) ⟨[[[5]]]⟩ [0] 0 (by simp)
